import Mathlib

/-!
Verification of `src/handbrake_titles_with_preset.py`.

The Python script drives HandBrakeCLI: `scan_for_titles` runs the engine in
scan mode on one input folder, decodes the captured stderr bytes with
`bytes.decode("utf-8", "ignore")`, and extracts title identifiers with the
regular expression `\n\+ title (\d+):` (lines 97-125).  `main` iterates the
configured input paths, skips regular files, exits on paths that are
neither file nor directory, scans each directory, and for every returned
title constructs an output name `f"{output_file_prefix}{episode_num:0>2d}{output_file_extension}"`
and increments the global episode counter (lines 128-188).

Shallow embedding conventions:
* Python strings are `List Char`; raw subprocess output is `List Nat`
  (bytes; each byte is < 256 in intended use).
* The filesystem and the HandBrakeCLI subprocess are external
  collaborators.  An `Env` value supplies exactly the answers the script
  observes: the kind of each input path (`Path.is_file` / `Path.is_dir`),
  and the stderr bytes of a scan invocation, where `none` models
  `subprocess.SubprocessError` being raised.
* `sys.exit` calls and the final-summary `UnboundLocalError` (line 186
  references `output_file_name`, which is unassigned when no job was
  emitted) are modelled by the `Outcome` type.
* The regex character class `\d` is modelled as the ASCII digits
  (`Char.isDigit`); HandBrake's title-announcement lines are plain ASCII.
-/

/-- Convert a string literal to the character-list representation used for
Python strings throughout this development. -/
def str (s : String) : List Char := s.toList

/-- The bytes of an ASCII string, used to model subprocess stderr output. -/
def asciiBytes (s : String) : List Nat := s.toList.map Char.toNat

/-! ### Lenient UTF-8 decoding (`scan.decode("utf-8", "ignore")`, line 121)

CPython's UTF-8 decoder with the `"ignore"` error handler drops each
maximal subpart of an ill-formed sequence and continues with the next
byte.  We model it as a byte-at-a-time state machine: in the `clean`
state a byte either yields an ASCII character, starts a multi-byte
sequence, or is dropped; inside a sequence an out-of-range byte drops the
pending bytes and is reprocessed as a fresh start byte.  The decoder is a
total function, so decoding can never fail the run. -/

/-- Decoder state: between characters, or inside a multi-byte sequence
expecting `k` more continuation bytes, the next one in range `[lo, hi]`
(the first continuation range depends on the leading byte, which excludes
overlong forms and surrogates exactly as CPython does), with `acc` the
code-point bits collected so far. -/
inductive U8State where
  | clean : U8State
  | expect (k lo hi acc : Nat) : U8State

/-- The action a single byte triggers when read between characters. -/
inductive U8Start where
  | emit (c : Char) : U8Start
  | skip : U8Start
  | begin (k lo hi acc : Nat) : U8Start

/-- Classify a byte read between characters: ASCII, invalid
(stray continuation `80`-`BF`, overlong lead `C0`/`C1`, or `F5`-`FF`),
or the lead byte of a 2-, 3- or 4-byte sequence. -/
def u8start (b : Nat) : U8Start :=
  if b < 0x80 then .emit (Char.ofNat b)
  else if b < 0xC2 then .skip
  else if b < 0xE0 then .begin 1 0x80 0xBF (b - 0xC0)
  else if b < 0xF0 then
    .begin 2 (if b = 0xE0 then 0xA0 else 0x80) (if b = 0xED then 0x9F else 0xBF) (b - 0xE0)
  else if b < 0xF5 then
    .begin 3 (if b = 0xF0 then 0x90 else 0x80) (if b = 0xF4 then 0x8F else 0xBF) (b - 0xF0)
  else .skip

/-- The decoding state machine.  A truncated sequence at end of input is
dropped; an out-of-range byte inside a sequence drops the pending bytes
and is reprocessed as a start byte (CPython's maximal-subpart policy). -/
def u8fold : U8State → List Nat → List Char
  | _, [] => []
  | .clean, b :: t =>
    match u8start b with
    | .emit c => c :: u8fold .clean t
    | .skip => u8fold .clean t
    | .begin k lo hi acc => u8fold (.expect k lo hi acc) t
  | .expect k lo hi acc, b :: t =>
    if lo ≤ b ∧ b ≤ hi then
      if k ≤ 1 then Char.ofNat (acc * 64 + (b - 0x80)) :: u8fold .clean t
      else u8fold (.expect (k - 1) 0x80 0xBF (acc * 64 + (b - 0x80))) t
    else
      match u8start b with
      | .emit c => c :: u8fold .clean t
      | .skip => u8fold .clean t
      | .begin k' lo' hi' acc' => u8fold (.expect k' lo' hi' acc') t

/-- `scan.decode("utf-8", "ignore")` (line 121): total, never raises. -/
def decodeUtf8Ignore (bs : List Nat) : List Char := u8fold .clean bs

/-- The same state machine, but collecting the bytes that the decoder
actually consumes into characters: the decodable subset of the input.
`pend` holds the bytes of the current partially-read sequence. -/
def u8kept (pend : List Nat) : U8State → List Nat → List Nat
  | _, [] => []
  | .clean, b :: t =>
    match u8start b with
    | .emit _ => b :: u8kept [] .clean t
    | .skip => u8kept [] .clean t
    | .begin k lo hi acc => u8kept [b] (.expect k lo hi acc) t
  | .expect k lo hi acc, b :: t =>
    if lo ≤ b ∧ b ≤ hi then
      if k ≤ 1 then (pend ++ [b]) ++ u8kept [] .clean t
      else u8kept (pend ++ [b]) (.expect (k - 1) 0x80 0xBF (acc * 64 + (b - 0x80))) t
    else
      match u8start b with
      | .emit _ => b :: u8kept [] .clean t
      | .skip => u8kept [] .clean t
      | .begin k' lo' hi' acc' => u8kept [b] (.expect k' lo' hi' acc') t

/-- The decodable subset of a byte sequence: the bytes kept (in order) by
the lenient decoder; the complement is the dropped, undecodable noise. -/
def decodableSubset (bs : List Nat) : List Nat := u8kept [] .clean bs

/-! ### Title extraction (`re.findall(r'\n\+ title (\d+):', scan)`, line 124)

The regex is a literal prefix `"\n+ title "`, a nonempty greedy digit run
(the capture group), and a literal `':'`.  Since the digit run is greedy
and followed by a non-digit literal, backtracking never changes a match:
a match at a position exists iff the text there starts with the literal
prefix, then one or more digits, then a colon.  `re.findall` scans left
to right, collecting non-overlapping matches and resuming after each
match's end. -/

/-- The characters `"+ title "` (a title-announcement line's prefix). -/
def lineHead : List Char := ['+', ' ', 't', 'i', 't', 'l', 'e', ' ']

/-- The characters `"\n+ title "` (the regex's literal prefix). -/
def titleHead : List Char := '\n' :: lineHead

/-- Try to match `\n\+ title (\d+):` at the start of `cs`; on success
return the captured digit run and the text after the match. -/
def matchTitleAt (cs : List Char) : Option (List Char × List Char) :=
  if titleHead.isPrefixOf cs then
    match (cs.drop 9).dropWhile Char.isDigit with
    | ':' :: r2 =>
      if (cs.drop 9).takeWhile Char.isDigit = [] then none
      else some ((cs.drop 9).takeWhile Char.isDigit, r2)
    | _ => none
  else none

/-- The scan of `re.findall`: try a match at the current position; on
success collect the capture and resume after the match, otherwise move
one character right.  The fuel argument (consumed once per step) makes
the recursion structural; `length` fuel always suffices because a match
consumes at least one character. -/
def findallAux : Nat → List Char → List (List Char)
  | 0, _ => []
  | _ + 1, [] => []
  | fuel + 1, c :: t =>
    match matchTitleAt (c :: t) with
    | some (ds, r2) => ds :: findallAux fuel r2
    | none => findallAux fuel t

/-- `re.findall(r'\n\+ title (\d+):', s)`: all captured digit runs, in
text order. -/
def findall (cs : List Char) : List (List Char) := findallAux cs.length cs

/-! ### Lines of a text, and the spec's line-oriented pattern

The specification describes the extraction as line-oriented: every line
beginning with `'+'`, the word `title`, a numeric identifier and a colon
contributes its identifier.  These definitions render that description,
to be compared with the regex-based `findall`. -/

/-- Split a text into lines at `'\n'` (like Python's `split("\n")`:
`lines [] = [[]]`, and a trailing newline yields a final empty line). -/
def lines : List Char → List (List Char)
  | [] => [[]]
  | c :: t =>
    if c = '\n' then [] :: lines t
    else
      match lines t with
      | l :: ls => (c :: l) :: ls
      | [] => [[c]]

/-- The spec's title-announcement pattern on a single line: the line
starts with `"+ title "`, then a nonempty digit run, then `':'`; returns
the numeric identifier.  (Rendered from the spec's words for comparison
with the source's regex scan.) -/
def lineTitle? (l : List Char) : Option (List Char) :=
  if lineHead.isPrefixOf l then
    match (l.drop 8).dropWhile Char.isDigit with
    | ':' :: _ =>
      if (l.drop 8).takeWhile Char.isDigit = [] then none
      else some ((l.drop 8).takeWhile Char.isDigit)
    | _ => none
  else none

/-! ### Configuration, environment, and the job sequencer (`main`) -/

/-- The module-level configuration constants (lines 79-94). -/
structure Config where
  input_file_paths : List (List Char)
  output_file_directory : List Char
  output_file_prefix_str : List Char
  episode_num : Nat
  output_file_extension : List Char
  title_min_duration : Nat
  preset_file_full_path : List Char
  preset_name : List Char

/-- The filesystem kind of a path, as observed via `Path.is_file` /
`Path.is_dir` (lines 148, 156, 179). -/
inductive FsKind where
  | file : FsKind
  | dir : FsKind
  | neither : FsKind
deriving DecidableEq

/-- The external collaborators: the filesystem's answer for each input
path, and the stderr bytes produced by a HandBrakeCLI scan invocation on
a folder with a given `--min-duration` value.  `none` models
`subprocess.SubprocessError` being raised (line 117). -/
structure Env where
  kind : List Char → FsKind
  scanStderr : List Char → Nat → Option (List Nat)

/-- `scan_for_titles` (lines 97-125): run the scan subprocess, decode its
stderr leniently, extract the title identifiers.  `none` propagates an
invocation failure (`except subprocess.SubprocessError: ... sys.exit()`). -/
def scan_for_titles (cfg : Config) (env : Env) (scan_folder : List Char) :
    Option (List (List Char)) :=
  match env.scanStderr scan_folder cfg.title_min_duration with
  | none => none
  | some bytes => some (findall (decodeUtf8Ignore bytes))

/-- The titles a successful scan of `p` yields (`[]` if the scan fails;
only used under hypotheses that rule the failure out). -/
def titlesOf (cfg : Config) (env : Env) (p : List Char) : List (List Char) :=
  match scan_for_titles cfg env p with
  | some ts => ts
  | none => []

/-- Decimal digits of `n`, most significant first (structural fuel
recursion; fuel `n + 1` always suffices). -/
def natDigitsAux : Nat → Nat → List Char
  | 0, _ => []
  | fuel + 1, n =>
    if n = 0 then [] else natDigitsAux fuel (n / 10) ++ [Char.ofNat (n % 10 + 48)]

/-- Python's `str` / `format(..., "d")` on a nonnegative integer. -/
def natRepr (n : Nat) : List Char :=
  if n = 0 then ['0'] else natDigitsAux (n + 1) n

/-- Python's format spec `0>2d` (line 169): right-align in width 2,
filling with `'0'`; wider values are kept whole, never truncated. -/
def pyFormat02 (n : Nat) : List Char :=
  if (natRepr n).length < 2 then
    List.replicate (2 - (natRepr n).length) '0' ++ natRepr n
  else natRepr n

/-- The spec's words for the counter's rendering: the decimal value
zero-padded to width 2 (rendered from the spec, for comparison with the
source's `0>2d` format). -/
def zeroPad2Spec (n : Nat) : List Char :=
  List.replicate (2 - (natRepr n).length) '0' ++ natRepr n

/-- Read a digit string back as a number (to state that no digits are
lost by the formatting). -/
def parseNat (l : List Char) : Nat :=
  l.foldl (fun acc c => acc * 10 + (c.toNat - 48)) 0

/-- `output_file_name = f"{output_file_prefix}{episode_num:0>2d}{output_file_extension}"`
(line 169). -/
def output_file_name (cfg : Config) (ep : Nat) : List Char :=
  cfg.output_file_prefix_str ++ pyFormat02 ep ++ cfg.output_file_extension

/-- One emitted transcode job (lines 166-176): the episode counter value
at emission time, the input folder, the title identifier, and the
computed output file name. -/
structure Job where
  episode : Nat
  input_path : List Char
  title : List Char
  out_name : List Char
deriving DecidableEq

/-- How a run ends: the success summary (lines 185-188: last output path
and next episode number, then the notification beep), the
`UnboundLocalError` raised at line 186 when no job was ever emitted
(`output_file_name` unassigned), or one of the two `sys.exit` calls
(lines 119 and 182). -/
inductive Outcome where
  | summary (last_output : List Char) (next_episode : Nat) : Outcome
  | unboundLocalError : Outcome
  | exitScanError (path : List Char) : Outcome
  | exitInvalidPath (path : List Char) : Outcome
deriving DecidableEq

/-- The observable result of a run: emitted jobs in emission order, the
final value of the episode counter, the input paths logged and skipped
as regular files (lines 148-153), and the outcome. -/
structure RunResult where
  jobs : List Job
  episode_num : Nat
  skipped : List (List Char)
  outcome : Outcome
deriving DecidableEq

/-- The inner `for title in titles` loop (lines 166-176): emit one job
per title, incrementing the counter by exactly one each time; returns
the jobs in order and the final counter. -/
def emitJobs (cfg : Config) (path : List Char) : List (List Char) → Nat → List Job × Nat
  | [], ep => ([], ep)
  | t :: ts, ep =>
    let pr := emitJobs cfg path ts (ep + 1)
    (⟨ep, path, t, output_file_name cfg ep⟩ :: pr.1, pr.2)

/-- The `for input_file_path in input_file_paths` loop of `main`
(lines 144-188) plus the post-step.  `last` is the current value of the
local variable `output_file_name` (`none` while unassigned). -/
def mainLoop (cfg : Config) (env : Env) : List (List Char) → Nat → Option (List Char) → RunResult
  | [], ep, last =>
    match last with
    | some name => ⟨[], ep, [], .summary (cfg.output_file_directory ++ name) ep⟩
    | none => ⟨[], ep, [], .unboundLocalError⟩
  | p :: rest, ep, last =>
    match env.kind p with
    | .file =>
      let r := mainLoop cfg env rest ep last
      ⟨r.jobs, r.episode_num, p :: r.skipped, r.outcome⟩
    | .dir =>
      match scan_for_titles cfg env p with
      | none => ⟨[], ep, [], .exitScanError p⟩
      | some titles =>
        let pr := emitJobs cfg p titles ep
        let last2 :=
          match pr.1.getLast? with
          | some j => some j.out_name
          | none => last
        let r := mainLoop cfg env rest pr.2 last2
        ⟨pr.1 ++ r.jobs, r.episode_num, r.skipped, r.outcome⟩
    | .neither => ⟨[], ep, [], .exitInvalidPath p⟩

/-- `main` (lines 128-188), as a function of the configuration and the
external environment. -/
def main_run (cfg : Config) (env : Env) : RunResult :=
  mainLoop cfg env cfg.input_file_paths cfg.episode_num none

/-- Whether an outcome is the success summary (summary printed, beep
played). -/
def isSummary : Outcome → Bool
  | .summary _ _ => true
  | _ => false

/-- No input path in the list aborts the run: none is of kind `neither`,
and every directory's scan invocation succeeds. -/
def NoFatal (cfg : Config) (env : Env) (paths : List (List Char)) : Prop :=
  ∀ p ∈ paths, env.kind p ≠ FsKind.neither ∧
    (env.kind p = FsKind.dir → scan_for_titles cfg env p ≠ none)

/-! ### Concrete fixtures for witnesses and counterexamples -/

/-- The spec's worked scenario configuration: `prefix="s01e"`, `start=1`,
`extension=".mkv"`. -/
def cfgW : Config :=
  ⟨[str "A", str "B"], str "out/", str "s01e", 1, str ".mkv", 2520, str "p.json", str "P"⟩

/-- Environment for the worked scenario: folder `A` yields titles `5`
and `12`, folder `B` yields title `7`. -/
def envW : Env :=
  ⟨fun _ => FsKind.dir,
   fun p _ =>
     if p = str "A" then some (asciiBytes "scan\n+ title 5:\n+ title 12:\n")
     else some (asciiBytes "scan\n+ title 7:\n")⟩

/-- A configuration with no input paths: the run reaches the post-step
with zero emitted jobs. -/
def cfgEmpty : Config :=
  ⟨[], str "out/", str "s01e", 1, str ".mkv", 2520, str "p.json", str "P"⟩

/-- Environment with a regular file at path `F` between two directories. -/
def envSkip : Env :=
  ⟨fun p => if p = str "F" then FsKind.file else FsKind.dir,
   fun p _ =>
     if p = str "A" then some (asciiBytes "scan\n+ title 5:\n+ title 12:\n")
     else some (asciiBytes "scan\n+ title 7:\n")⟩

/-- Environment where path `X` exists as neither file nor directory. -/
def envBad : Env :=
  ⟨fun p => if p = str "X" then FsKind.neither else FsKind.dir,
   fun _ _ => some (asciiBytes "scan\n+ title 7:\n")⟩

/-- Environment where scanning folder `S` raises a subprocess error. -/
def envScanFail : Env :=
  ⟨fun _ => FsKind.dir,
   fun p _ => if p = str "S" then none else some (asciiBytes "scan\n+ title 7:\n")⟩

/-! ### Decimal formatting lemmas (for the output-name claims) -/

theorem natDigitsAux_zero : ∀ fuel, natDigitsAux fuel 0 = [] := by
  intro fuel
  cases fuel <;> simp [natDigitsAux]

theorem digit_char_toNat {m : Nat} (hm : m < 10) : (Char.ofNat (m + 48)).toNat = m + 48 := by
  interval_cases m <;> decide

theorem parseNat_concat (a : List Char) (c : Char) :
    parseNat (a ++ [c]) = parseNat a * 10 + (c.toNat - 48) := by
  simp [parseNat, List.foldl_append]

theorem natDigitsAux_parse : ∀ fuel n, n < 10 ^ fuel → parseNat (natDigitsAux fuel n) = n := by
  intro fuel
  induction fuel with
  | zero =>
    intro n hn
    simp [natDigitsAux, parseNat]
    omega
  | succ fuel ih =>
    intro n hn
    by_cases h0 : n = 0
    · simp [natDigitsAux, h0, parseNat]
    · have hdiv : n / 10 < 10 ^ fuel := by
        rw [Nat.div_lt_iff_lt_mul (by norm_num)]
        calc n < 10 ^ (fuel + 1) := hn
        _ = 10 ^ fuel * 10 := by ring
      rw [natDigitsAux, if_neg h0, parseNat_concat, ih _ hdiv,
        digit_char_toNat (Nat.mod_lt _ (by norm_num))]
      omega

theorem parseNat_natRepr (n : Nat) : parseNat (natRepr n) = n := by
  by_cases h0 : n = 0
  · subst h0; decide
  · rw [natRepr, if_neg h0]
    refine natDigitsAux_parse (n + 1) n ?_
    have h1 : n < 10 ^ n := Nat.lt_pow_self (by norm_num) n
    have h2 : 10 ^ n ≤ 10 ^ (n + 1) := Nat.pow_le_pow_right (by norm_num) (by omega)
    omega

theorem natDigitsAux_len_le : ∀ fuel k n, n < 10 ^ k → k ≤ fuel →
    (natDigitsAux fuel n).length ≤ k := by
  intro fuel
  induction fuel with
  | zero => intro k n _ _; simp [natDigitsAux]
  | succ fuel ih =>
    intro k n hn hk
    by_cases h0 : n = 0
    · simp [natDigitsAux, h0]
    · cases k with
      | zero => omega
      | succ k' =>
        have hdiv : n / 10 < 10 ^ k' := by
          rw [Nat.div_lt_iff_lt_mul (by norm_num)]
          calc n < 10 ^ (k' + 1) := hn
          _ = 10 ^ k' * 10 := by ring
        rw [natDigitsAux, if_neg h0]
        simp only [List.length_append, List.length_singleton]
        have := ih k' (n / 10) hdiv (by omega)
        omega

theorem natRepr_len_le_two {c : Nat} (hc : c ≤ 99) : (natRepr c).length ≤ 2 := by
  by_cases h0 : c = 0
  · simp [natRepr, h0]
  · rw [natRepr, if_neg h0]
    exact natDigitsAux_len_le (c + 1) 2 c (by omega) (by omega)

theorem natDigitsAux_len_pos : ∀ fuel n, 0 < fuel → 0 < n → 0 < (natDigitsAux fuel n).length := by
  intro fuel n hf hn
  cases fuel with
  | zero => omega
  | succ fuel =>
    rw [natDigitsAux, if_neg (by omega)]
    simp

theorem natRepr_len_ge_two {c : Nat} (hc : 100 ≤ c) : 2 ≤ (natRepr c).length := by
  rw [natRepr, if_neg (by omega), natDigitsAux, if_neg (by omega)]
  simp only [List.length_append, List.length_singleton]
  have := natDigitsAux_len_pos c (c / 10) (by omega) (by omega)
  omega

theorem pyFormat02_eq_zeroPad2Spec (c : Nat) : pyFormat02 c = zeroPad2Spec c := by
  rw [pyFormat02, zeroPad2Spec]
  by_cases h : (natRepr c).length < 2
  · rw [if_pos h]
  · rw [if_neg h]
    have : 2 - (natRepr c).length = 0 := by omega
    simp [this]

theorem zeroPad2Spec_len {c : Nat} (h : (natRepr c).length ≤ 2) :
    (zeroPad2Spec c).length = 2 := by
  simp only [zeroPad2Spec, List.length_append, List.length_replicate]
  omega

theorem pyFormat02_of_wide {c : Nat} (h : 2 ≤ (natRepr c).length) :
    pyFormat02 c = natRepr c := by
  rw [pyFormat02, if_neg (by omega)]

/-- C3: for counter values 1-99 the output file name is exactly the
configured leading literal, then the counter zero-padded to width 2
(and the padded field has width exactly 2); for counter values at or
above 100 the format keeps every decimal digit — the name embeds the
full decimal representation, which reads back as the counter value, so
nothing is silently truncated. -/
theorem c3_output_name_format (cfg : Config) (c : Nat) :
    (1 ≤ c → c ≤ 99 →
      output_file_name cfg c =
        cfg.output_file_prefix_str ++ zeroPad2Spec c ++ cfg.output_file_extension ∧
      (pyFormat02 c).length = 2) ∧
    (100 ≤ c →
      output_file_name cfg c =
        cfg.output_file_prefix_str ++ natRepr c ++ cfg.output_file_extension ∧
      parseNat (pyFormat02 c) = c) := by
  constructor
  · intro _ h99
    constructor
    · rw [output_file_name, pyFormat02_eq_zeroPad2Spec]
    · rw [pyFormat02_eq_zeroPad2Spec]
      exact zeroPad2Spec_len (natRepr_len_le_two h99)
  · intro h100
    have hw := pyFormat02_of_wide (natRepr_len_ge_two h100)
    constructor
    · rw [output_file_name, hw]
    · rw [hw]
      exact parseNat_natRepr c

/-- Witness for C3 at the scenario configuration, counters 5 and 123. -/
theorem c3_output_name_format_witness :
    (output_file_name cfgW 5 =
        cfgW.output_file_prefix_str ++ zeroPad2Spec 5 ++ cfgW.output_file_extension ∧
      (pyFormat02 5).length = 2) ∧
    (output_file_name cfgW 123 =
        cfgW.output_file_prefix_str ++ natRepr 123 ++ cfgW.output_file_extension ∧
      parseNat (pyFormat02 123) = 123) :=
  ⟨(c3_output_name_format cfgW 5).1 (by decide) (by decide),
   (c3_output_name_format cfgW 123).2 (by decide)⟩

/-- C8: extracting titles from scan text is a pure function of the text
alone: equal texts always yield equal identifier sequences, so applying
the parse twice to the same output gives identical results. -/
theorem c8_parse_deterministic (s t : List Char) (h : s = t) : findall s = findall t := by
  rw [h]

/-- Witness for C8: both applications to the same concrete scan text
agree. -/
theorem c8_parse_deterministic_witness :
    findall (str "x\n+ title 9:z") = findall (str "x\n+ title 9:z") :=
  c8_parse_deterministic (str "x\n+ title 9:z") (str "x\n+ title 9:z") rfl

/-! ### Characterising the regex match -/

theorem takeWhile_append_all {α : Type} (p : α → Bool) :
    ∀ (ds : List α) (c : α) (t : List α), (∀ x ∈ ds, p x = true) → p c = false →
      (ds ++ c :: t).takeWhile p = ds ∧ (ds ++ c :: t).dropWhile p = c :: t := by
  intro ds
  induction ds with
  | nil =>
    intro c t _ hc
    constructor
    · simp [List.takeWhile_cons, hc]
    · simp [List.dropWhile_cons, hc]
  | cons d ds ih =>
    intro c t hall hc
    have hd : p d = true := hall d (by simp)
    have ihr := ih c t (fun x hx => hall x (by simp [hx])) hc
    constructor
    · simp [List.takeWhile_cons, hd, ihr.1]
    · simp [List.dropWhile_cons, hd, ihr.2]

theorem matchTitleAt_some {cs ds r2 : List Char} (h : matchTitleAt cs = some (ds, r2)) :
    ds ≠ [] ∧ (∀ c ∈ ds, c.isDigit = true) ∧ cs = titleHead ++ ds ++ ':' :: r2 := by
  rw [matchTitleAt] at h
  split at h
  case isFalse => cases h
  case isTrue hp =>
    split at h
    case _ c0 heq =>
      split at h
      case isTrue => cases h
      case isFalse hne =>
        injection h with h
        injection h with h1 h2
        obtain ⟨rest, hrest⟩ := List.isPrefixOf_iff_prefix.mp hp
        have hdrop : cs.drop 9 = rest := by
          rw [← hrest]
          exact List.drop_left' (by decide)
        subst h1 h2
        refine ⟨hne, fun c hc => List.mem_takeWhile_imp hc, ?_⟩
        rw [hdrop] at heq
        have hrest2 : rest = List.takeWhile Char.isDigit rest ++ ':' :: c0 := by
          conv_lhs => rw [← List.takeWhile_append_dropWhile Char.isDigit rest]
          rw [heq]
        calc cs = titleHead ++ rest := hrest.symm
        _ = titleHead ++ (List.takeWhile Char.isDigit rest ++ ':' :: c0) := by rw [← hrest2]
        _ = titleHead ++ List.takeWhile Char.isDigit (cs.drop 9) ++ ':' :: c0 := by
            rw [hdrop, List.append_assoc]
    case _ hne => cases h

theorem matchTitleAt_of_shape {ds r2 : List Char} (hne : ds ≠ [])
    (hdig : ∀ c ∈ ds, c.isDigit = true) :
    matchTitleAt (titleHead ++ ds ++ ':' :: r2) = some (ds, r2) := by
  have hp : titleHead.isPrefixOf (titleHead ++ ds ++ ':' :: r2) := by
    rw [List.isPrefixOf_iff_prefix, List.append_assoc]
    exact List.prefix_append _ _
  have hdrop : (titleHead ++ ds ++ ':' :: r2).drop 9 = ds ++ ':' :: r2 := by
    rw [List.append_assoc]
    exact List.drop_left' (by decide)
  have htw := takeWhile_append_all Char.isDigit ds ':' r2 hdig (by decide)
  rw [matchTitleAt, if_pos hp, hdrop, htw.2, htw.1]
  simp [hne]

/-! ### Lines -/

theorem lines_ne_nil (s : List Char) : lines s ≠ [] := by
  cases s with
  | nil => simp [lines]
  | cons c t =>
    rw [lines]
    by_cases h : c = '\n'
    · simp [h]
    · rw [if_neg h]
      rcases lines t with _ | ⟨l, ls⟩ <;> simp

theorem lines_append_no_nl :
    ∀ (pre s : List Char) (l : List Char) (ls : List (List Char)),
      (∀ c ∈ pre, c ≠ '\n') → lines s = l :: ls →
      lines (pre ++ s) = (pre ++ l) :: ls := by
  intro pre
  induction pre with
  | nil => intro s l ls _ h; simpa using h
  | cons c pre ih =>
    intro s l ls hno h
    have hc : c ≠ '\n' := hno c (by simp)
    have hih := ih s l ls (fun x hx => hno x (by simp [hx])) h
    rw [List.cons_append, lines, if_neg hc, hih]
    rfl

theorem lines_decomp :
    ∀ (s l : List Char) (ls : List (List Char)), lines s = l :: ls →
      (∀ c ∈ l, c ≠ '\n') ∧
      ((s = l ∧ ls = []) ∨ ∃ s2, s = l ++ '\n' :: s2 ∧ lines s2 = ls) := by
  intro s
  induction s with
  | nil =>
    intro l ls h
    rw [lines] at h
    injection h with h1 h2
    exact ⟨by rw [← h1]; simp, Or.inl ⟨h1, h2.symm⟩⟩
  | cons c t ih =>
    intro l ls h
    rw [lines] at h
    by_cases hc : c = '\n'
    · rw [if_pos hc] at h
      injection h with h1 h2
      refine ⟨by rw [← h1]; simp, Or.inr ⟨t, ?_, h2⟩⟩
      rw [← h1, hc]
      rfl
    · rw [if_neg hc] at h
      rcases hlt : lines t with _ | ⟨l', ls'⟩
      · exact absurd hlt (lines_ne_nil t)
      rw [hlt] at h
      injection h with h1 h2
      obtain ⟨hnl, hrest⟩ := ih l' ls' hlt
      refine ⟨?_, ?_⟩
      · intro x hx
        rw [← h1] at hx
        rcases List.mem_cons.mp hx with rfl | hx'
        · exact hc
        · exact hnl x hx'
      · rcases hrest with ⟨rfl, rfl⟩ | ⟨s2, rfl, hls⟩
        · exact Or.inl ⟨by rw [← h1], h2.symm⟩
        · exact Or.inr ⟨s2, by simp [← h1], by rw [← h2]; exact hls⟩

theorem lineTitle?_some {l ds : List Char} (h : lineTitle? l = some ds) :
    ds ≠ [] ∧ (∀ c ∈ ds, c.isDigit = true) ∧ ∃ a, l = lineHead ++ ds ++ ':' :: a := by
  rw [lineTitle?] at h
  split at h
  case isFalse => cases h
  case isTrue hp =>
    split at h
    case _ c0 heq =>
      split at h
      case isTrue => cases h
      case isFalse hne =>
        injection h with h1
        obtain ⟨rest, hrest⟩ := List.isPrefixOf_iff_prefix.mp hp
        have hdrop : l.drop 8 = rest := by
          rw [← hrest]
          exact List.drop_left' (by decide)
        subst h1
        refine ⟨hne, fun c hc => List.mem_takeWhile_imp hc, c0, ?_⟩
        rw [hdrop] at heq
        have hrest2 : rest = List.takeWhile Char.isDigit rest ++ ':' :: c0 := by
          conv_lhs => rw [← List.takeWhile_append_dropWhile Char.isDigit rest]
          rw [heq]
        calc l = lineHead ++ rest := hrest.symm
        _ = lineHead ++ (List.takeWhile Char.isDigit rest ++ ':' :: c0) := by rw [← hrest2]
        _ = lineHead ++ List.takeWhile Char.isDigit (l.drop 8) ++ ':' :: c0 := by
            rw [hdrop, List.append_assoc]
    case _ hne => cases h

theorem lineTitle?_of_shape {ds a : List Char} (hne : ds ≠ [])
    (hdig : ∀ c ∈ ds, c.isDigit = true) :
    lineTitle? (lineHead ++ ds ++ ':' :: a) = some ds := by
  have hp : lineHead.isPrefixOf (lineHead ++ ds ++ ':' :: a) := by
    rw [List.isPrefixOf_iff_prefix, List.append_assoc]
    exact List.prefix_append _ _
  have hdrop : (lineHead ++ ds ++ ':' :: a).drop 8 = ds ++ ':' :: a := by
    rw [List.append_assoc]
    exact List.drop_left' (by decide)
  have htw := takeWhile_append_all Char.isDigit ds ':' a hdig (by decide)
  rw [lineTitle?, if_pos hp, hdrop, htw.2, htw.1]
  simp [hne]

theorem isDigit_ne_nl {c : Char} (h : c.isDigit = true) : c ≠ '\n' := by
  intro hc
  subst hc
  exact absurd h (by decide)

theorem lineHead_no_nl : ∀ c ∈ lineHead, c ≠ '\n' := by decide

theorem findallAux_eq_lines :
    ∀ fuel s, s.length ≤ fuel →
      findallAux fuel s = ((lines s).drop 1).filterMap lineTitle? := by
  intro fuel
  induction fuel with
  | zero =>
    intro s hs
    have hnil : s = [] := by
      cases s
      · rfl
      · simp at hs
    subst hnil
    simp [findallAux, lines]
  | succ fuel ih =>
    intro s hs
    cases s with
    | nil => simp [findallAux, lines]
    | cons c t =>
      rw [findallAux]
      rcases hm : matchTitleAt (c :: t) with _ | ⟨ds, r2⟩
      · show findallAux fuel t = List.filterMap lineTitle? (List.drop 1 (lines (c :: t)))
        by_cases hc : c = '\n'
        · subst hc
          rcases hlt : lines t with _ | ⟨l, ls⟩
          · exact absurd hlt (lines_ne_nil t)
          have hnone : lineTitle? l = none := by
            rcases hlo : lineTitle? l with _ | ds
            · rfl
            exfalso
            obtain ⟨hne, hdig, a, hl⟩ := lineTitle?_some hlo
            obtain ⟨hnl, hrest⟩ := lines_decomp t l ls hlt
            rcases hrest with ⟨rfl, rfl⟩ | ⟨s2, rfl, hls2⟩
            · rw [hl] at hm
              have hsome := @matchTitleAt_of_shape ds a hne hdig
              rw [show ('\n' :: (lineHead ++ ds ++ ':' :: a) : List Char)
                    = titleHead ++ ds ++ ':' :: a from by simp [titleHead]] at hm
              rw [hsome] at hm
              cases hm
            · rw [hl] at hm
              have hsome := @matchTitleAt_of_shape ds (a ++ '\n' :: s2) hne hdig
              rw [show ('\n' :: ((lineHead ++ ds ++ ':' :: a) ++ '\n' :: s2) : List Char)
                    = titleHead ++ ds ++ ':' :: (a ++ '\n' :: s2) from by simp [titleHead]] at hm
              rw [hsome] at hm
              cases hm
          rw [ih t (by simp at hs; omega)]
          rw [show lines ('\n' :: t) = [] :: lines t from by rw [lines]; simp]
          simp [hlt, hnone]
        · rcases hlt : lines t with _ | ⟨l, ls⟩
          · exact absurd hlt (lines_ne_nil t)
          rw [ih t (by simp at hs; omega)]
          rw [show lines (c :: t) = (c :: l) :: ls from by rw [lines, if_neg hc, hlt]]
          simp [hlt]
      · show ds :: findallAux fuel r2 = List.filterMap lineTitle? (List.drop 1 (lines (c :: t)))
        obtain ⟨hne, hdig, hcs⟩ := matchTitleAt_some hm
        rw [show (titleHead ++ ds ++ ':' :: r2 : List Char)
              = '\n' :: (lineHead ++ ds ++ ':' :: r2) from by simp [titleHead]] at hcs
        injection hcs with hch hct
        subst hch
        have hr2 : r2.length ≤ fuel := by
          have hlen := congrArg List.length hct
          simp [List.length_append] at hlen
          simp at hs
          omega
        have hno : ∀ x ∈ lineHead ++ ds ++ [':'], x ≠ '\n' := by
          intro x hx
          rcases List.mem_append.mp hx with hx' | hx''
          · rcases List.mem_append.mp hx' with h1 | h2
            · exact lineHead_no_nl x h1
            · exact isDigit_ne_nl (hdig x h2)
          · simp at hx''
            subst hx''
            decide
        rcases hlr : lines r2 with _ | ⟨a, as⟩
        · exact absurd hlr (lines_ne_nil r2)
        have hlines_t : lines t = ((lineHead ++ ds ++ [':']) ++ a) :: as := by
          rw [hct, show (lineHead ++ ds ++ ':' :: r2 : List Char)
                = (lineHead ++ ds ++ [':']) ++ r2 from by simp]
          exact lines_append_no_nl _ r2 a as hno hlr
        have hsome : lineTitle? (lineHead ++ (ds ++ ':' :: a)) = some ds := by
          rw [show (lineHead ++ (ds ++ ':' :: a) : List Char)
                = lineHead ++ ds ++ ':' :: a from by simp]
          exact lineTitle?_of_shape hne hdig
        rw [ih r2 hr2]
        rw [show lines ('\n' :: t) = [] :: lines t from by rw [lines]; simp]
        simp [hlines_t, hsome, hlr]

/-- C2 counterexample: the text consisting of the single line
`"+ title 3:"` contains exactly one line matching the title-announcement
pattern (its identifiers are `["3"]`), yet the code's extraction returns
no identifiers: the regex `\n\+ title (\d+):` requires a newline before
the `'+'`, so a matching first line is never collected. -/
theorem c2_first_line_counterexample :
    (lines (str "+ title 3:")).filterMap lineTitle? = [str "3"] ∧
    findall (str "+ title 3:") = [] := by
  constructor
  · decide
  · decide

/-- C2 (amended): for every scan-output text, the extraction returns
exactly the identifiers of the pattern-matching lines other than the
first line of the text, in the order those lines appear (non-matching
lines are ignored); the first line is excluded because the regex demands
a preceding newline.  In particular the spec's scenario
`"...\n+ title 3:\n...\n+ title 68:\n..."` yields `["3", "68"]`. -/
theorem c2_line_extraction_amended :
    (∀ s : List Char, findall s = ((lines s).drop 1).filterMap lineTitle?) ∧
    findall (str "...\n+ title 3:\n...\n+ title 68:\n...") = [str "3", str "68"] := by
  constructor
  · intro s
    exact findallAux_eq_lines s.length s (le_refl _)
  · decide

theorem findallAux_digit_strings :
    ∀ fuel s t, t ∈ findallAux fuel s → t ≠ [] ∧ t.all Char.isDigit = true := by
  intro fuel
  induction fuel with
  | zero => intro s t ht; simp [findallAux] at ht
  | succ fuel ih =>
    intro s t ht
    cases s with
    | nil => simp [findallAux] at ht
    | cons c cs =>
      rw [findallAux] at ht
      rcases hm : matchTitleAt (c :: cs) with _ | ⟨ds, r2⟩
      · rw [hm] at ht
        exact ih cs t ht
      · rw [hm] at ht
        rcases List.mem_cons.mp ht with rfl | ht'
        · obtain ⟨hne, hdig, _⟩ := matchTitleAt_some hm
          exact ⟨hne, List.all_eq_true.mpr hdig⟩
        · exact ih r2 t ht'

/-- C10: every identifier in the sequence returned by a successful
`scan_for_titles` is a nonempty string consisting only of decimal
digits, so it parses as a nonnegative integer. -/
theorem c10_titles_digit_strings (cfg : Config) (env : Env) (folder : List Char)
    (ts : List (List Char)) (h : scan_for_titles cfg env folder = some ts) :
    ∀ t ∈ ts, t ≠ [] ∧ t.all Char.isDigit = true := by
  rw [scan_for_titles] at h
  rcases hs : env.scanStderr folder cfg.title_min_duration with _ | bytes
  · rw [hs] at h
    cases h
  · rw [hs] at h
    injection h with h
    subst h
    intro t ht
    exact findallAux_digit_strings _ _ t ht

/-- Witness for C10 at the scenario scan of folder `A`. -/
theorem c10_titles_digit_strings_witness :
    str "5" ≠ [] ∧ (str "5").all Char.isDigit = true :=
  c10_titles_digit_strings cfgW envW (str "A") [str "5", str "12"] (by decide)
    (str "5") (by decide)

/-! ### Lenient decoding drops bytes and preserves the decodable part -/

theorem u8kept_sublist : ∀ (bs : List Nat) (st : U8State) (pend : List Nat),
    (u8kept pend st bs).Sublist (pend ++ bs) := by
  intro bs
  induction bs with
  | nil =>
    intro st pend
    cases st <;> simp [u8kept]
  | cons b t ih =>
    intro st pend
    have hbt : pend ++ b :: t = (pend ++ [b]) ++ t := by simp
    have ht : t.Sublist (pend ++ b :: t) := by
      rw [hbt]
      exact List.sublist_append_right _ _
    cases st with
    | clean =>
      rw [u8kept]
      rcases hu : u8start b with c | _ | ⟨k, lo, hi, acc⟩
      · exact (List.Sublist.cons₂ b (by simpa using ih .clean [])).trans
          (List.sublist_append_right pend (b :: t))
      · exact (by simpa using ih .clean [] : (u8kept [] .clean t).Sublist t).trans ht
      · exact (by simpa using ih (.expect k lo hi acc) [b] :
            (u8kept [b] (.expect k lo hi acc) t).Sublist (b :: t)).trans
          (List.sublist_append_right pend (b :: t))
    | expect k lo hi acc =>
      rw [u8kept]
      by_cases hr : lo ≤ b ∧ b ≤ hi
      · rw [if_pos hr]
        by_cases hk : k ≤ 1
        · rw [if_pos hk, hbt]
          exact List.Sublist.append_left (by simpa using ih .clean []) (pend ++ [b])
        · rw [if_neg hk, hbt]
          exact ih _ (pend ++ [b])
      · rw [if_neg hr]
        rcases hu : u8start b with c | _ | ⟨k', lo', hi', acc'⟩
        · exact (List.Sublist.cons₂ b (by simpa using ih .clean [])).trans
            (List.sublist_append_right pend (b :: t))
        · exact (by simpa using ih .clean [] : (u8kept [] .clean t).Sublist t).trans ht
        · exact (by simpa using ih (.expect k' lo' hi' acc') [b] :
              (u8kept [b] (.expect k' lo' hi' acc') t).Sublist (b :: t)).trans
            (List.sublist_append_right pend (b :: t))

theorem u8fold_kept : ∀ (bs : List Nat) (st : U8State) (pend : List Nat),
    (∀ t2, u8fold .clean (pend ++ t2) = u8fold st t2) →
    u8fold .clean (u8kept pend st bs) = u8fold st bs := by
  intro bs
  induction bs with
  | nil =>
    intro st pend _
    cases st <;> simp [u8kept, u8fold]
  | cons b t ih =>
    intro st pend hpend
    have hK : u8fold .clean (u8kept [] .clean t) = u8fold .clean t :=
      ih .clean [] (fun t2 => rfl)
    cases st with
    | clean =>
      rcases hu : u8start b with c | _ | ⟨k, lo, hi, acc⟩
      · calc u8fold .clean (u8kept pend .clean (b :: t))
            = u8fold .clean (b :: u8kept [] .clean t) := by rw [u8kept, hu]
          _ = c :: u8fold .clean (u8kept [] .clean t) := by rw [u8fold, hu]
          _ = c :: u8fold .clean t := by rw [hK]
          _ = u8fold .clean (b :: t) := by rw [u8fold, hu]
      · calc u8fold .clean (u8kept pend .clean (b :: t))
            = u8fold .clean (u8kept [] .clean t) := by rw [u8kept, hu]
          _ = u8fold .clean t := hK
          _ = u8fold .clean (b :: t) := by rw [u8fold, hu]
      · have hnew : ∀ t2, u8fold .clean ([b] ++ t2) = u8fold (.expect k lo hi acc) t2 := by
          intro t2
          rw [show ([b] ++ t2 : List Nat) = b :: t2 from rfl, u8fold, hu]
        calc u8fold .clean (u8kept pend .clean (b :: t))
            = u8fold .clean (u8kept [b] (.expect k lo hi acc) t) := by rw [u8kept, hu]
          _ = u8fold (.expect k lo hi acc) t := ih _ [b] hnew
          _ = u8fold .clean (b :: t) := by rw [u8fold, hu]
    | expect k lo hi acc =>
      by_cases hr : lo ≤ b ∧ b ≤ hi
      · by_cases hk : k ≤ 1
        · calc u8fold .clean (u8kept pend (.expect k lo hi acc) (b :: t))
              = u8fold .clean ((pend ++ [b]) ++ u8kept [] .clean t) := by
                rw [u8kept, if_pos hr, if_pos hk]
            _ = u8fold .clean (pend ++ (b :: u8kept [] .clean t)) := by
                rw [List.append_assoc]
                rfl
            _ = u8fold (.expect k lo hi acc) (b :: u8kept [] .clean t) := hpend _
            _ = Char.ofNat (acc * 64 + (b - 0x80)) :: u8fold .clean (u8kept [] .clean t) := by
                rw [u8fold, if_pos hr, if_pos hk]
            _ = Char.ofNat (acc * 64 + (b - 0x80)) :: u8fold .clean t := by rw [hK]
            _ = u8fold (.expect k lo hi acc) (b :: t) := by rw [u8fold, if_pos hr, if_pos hk]
        · have hnew : ∀ t2, u8fold .clean ((pend ++ [b]) ++ t2)
              = u8fold (.expect (k - 1) 0x80 0xBF (acc * 64 + (b - 0x80))) t2 := by
            intro t2
            rw [List.append_assoc, show ([b] ++ t2 : List Nat) = b :: t2 from rfl,
              hpend (b :: t2), u8fold, if_pos hr, if_neg hk]
          calc u8fold .clean (u8kept pend (.expect k lo hi acc) (b :: t))
              = u8fold .clean
                  (u8kept (pend ++ [b]) (.expect (k - 1) 0x80 0xBF (acc * 64 + (b - 0x80))) t) := by
                rw [u8kept, if_pos hr, if_neg hk]
            _ = u8fold (.expect (k - 1) 0x80 0xBF (acc * 64 + (b - 0x80))) t := ih _ _ hnew
            _ = u8fold (.expect k lo hi acc) (b :: t) := by rw [u8fold, if_pos hr, if_neg hk]
      · rcases hu : u8start b with c | _ | ⟨k', lo', hi', acc'⟩
        · calc u8fold .clean (u8kept pend (.expect k lo hi acc) (b :: t))
              = u8fold .clean (b :: u8kept [] .clean t) := by rw [u8kept, if_neg hr, hu]
            _ = c :: u8fold .clean (u8kept [] .clean t) := by rw [u8fold, hu]
            _ = c :: u8fold .clean t := by rw [hK]
            _ = u8fold (.expect k lo hi acc) (b :: t) := by rw [u8fold, if_neg hr, hu]
        · calc u8fold .clean (u8kept pend (.expect k lo hi acc) (b :: t))
              = u8fold .clean (u8kept [] .clean t) := by rw [u8kept, if_neg hr, hu]
            _ = u8fold .clean t := hK
            _ = u8fold (.expect k lo hi acc) (b :: t) := by rw [u8fold, if_neg hr, hu]
        · have hnew : ∀ t2, u8fold .clean ([b] ++ t2)
              = u8fold (.expect k' lo' hi' acc') t2 := by
            intro t2
            rw [show ([b] ++ t2 : List Nat) = b :: t2 from rfl, u8fold, hu]
          calc u8fold .clean (u8kept pend (.expect k lo hi acc) (b :: t))
              = u8fold .clean (u8kept [b] (.expect k' lo' hi' acc') t) := by
                rw [u8kept, if_neg hr, hu]
            _ = u8fold (.expect k' lo' hi' acc') t := ih _ [b] hnew
            _ = u8fold (.expect k lo hi acc) (b :: t) := by rw [u8fold, if_neg hr, hu]

/-- C9: lenient decoding never fails the run (`decodeUtf8Ignore` is a
total function); the decodable subset is a sub-sequence of the raw bytes
(undecodable bytes are silently dropped, nothing is reordered or
invented); decoding the decodable subset gives the same text as decoding
the raw bytes, and hence title extraction on the decoded text equals
extraction applied to the decodable subset of the bytes. -/
theorem c9_decode_lenient (bs : List Nat) :
    (decodableSubset bs).Sublist bs ∧
    decodeUtf8Ignore (decodableSubset bs) = decodeUtf8Ignore bs ∧
    findall (decodeUtf8Ignore (decodableSubset bs)) = findall (decodeUtf8Ignore bs) := by
  have h2 : decodeUtf8Ignore (decodableSubset bs) = decodeUtf8Ignore bs :=
    u8fold_kept bs .clean [] (fun t2 => rfl)
  exact ⟨by simpa using u8kept_sublist bs .clean [], h2, by rw [h2]⟩

/-! ### The job sequencer -/

theorem titlesOf_eq_of_some {cfg : Config} {env : Env} {p : List Char}
    {ts : List (List Char)} (h : scan_for_titles cfg env p = some ts) :
    titlesOf cfg env p = ts := by
  rw [titlesOf, h]

theorem emitJobs_snd (cfg : Config) (p : List Char) :
    ∀ (ts : List (List Char)) (ep : Nat), (emitJobs cfg p ts ep).2 = ep + ts.length := by
  intro ts
  induction ts with
  | nil => intro ep; simp [emitJobs]
  | cons t ts ih =>
    intro ep
    rw [emitJobs]
    simp [ih (ep + 1)]
    omega

theorem emitJobs_map_episode (cfg : Config) (p : List Char) :
    ∀ (ts : List (List Char)) (ep : Nat),
      (emitJobs cfg p ts ep).1.map Job.episode = List.range' ep ts.length := by
  intro ts
  induction ts with
  | nil => intro ep; simp [emitJobs]
  | cons t ts ih =>
    intro ep
    rw [emitJobs]
    simp [ih (ep + 1), List.range'_succ]

theorem emitJobs_map_pt (cfg : Config) (p : List Char) :
    ∀ (ts : List (List Char)) (ep : Nat),
      (emitJobs cfg p ts ep).1.map (fun j => (j.input_path, j.title))
        = ts.map (fun t => (p, t)) := by
  intro ts
  induction ts with
  | nil => intro ep; simp [emitJobs]
  | cons t ts ih =>
    intro ep
    rw [emitJobs]
    simp [ih (ep + 1)]

theorem emitJobs_mem_path (cfg : Config) (p : List Char) :
    ∀ (ts : List (List Char)) (ep : Nat) (j : Job),
      j ∈ (emitJobs cfg p ts ep).1 → j.input_path = p := by
  intro ts
  induction ts with
  | nil => intro ep j hj; simp [emitJobs] at hj
  | cons t ts ih =>
    intro ep j hj
    rw [emitJobs] at hj
    rcases List.mem_cons.mp hj with rfl | hj'
    · rfl
    · exact ih (ep + 1) j hj'

theorem mainLoop_clean_episode (cfg : Config) (env : Env) :
    ∀ (paths : List (List Char)) (ep : Nat) (last : Option (List Char)),
      (∀ p ∈ paths, env.kind p = FsKind.dir ∧ scan_for_titles cfg env p ≠ none) →
      (mainLoop cfg env paths ep last).episode_num
        = ep + (paths.map (fun p => (titlesOf cfg env p).length)).sum := by
  intro paths
  induction paths with
  | nil =>
    intro ep last _
    cases last <;> simp [mainLoop]
  | cons p rest ih =>
    intro ep last hclean
    have hp := hclean p (by simp)
    have hrest : ∀ q ∈ rest, env.kind q = FsKind.dir ∧ scan_for_titles cfg env q ≠ none :=
      fun q hq => hclean q (List.mem_cons_of_mem p hq)
    rcases hts : scan_for_titles cfg env p with _ | ts
    · exact absurd hts hp.2
    rw [mainLoop, hp.1, hts]
    simp only []
    rw [ih _ _ hrest, emitJobs_snd]
    simp [titlesOf_eq_of_some hts]
    omega

theorem mainLoop_clean_map_episode (cfg : Config) (env : Env) :
    ∀ (paths : List (List Char)) (ep : Nat) (last : Option (List Char)),
      (∀ p ∈ paths, env.kind p = FsKind.dir ∧ scan_for_titles cfg env p ≠ none) →
      (mainLoop cfg env paths ep last).jobs.map Job.episode
        = List.range' ep ((paths.map (fun p => (titlesOf cfg env p).length)).sum) := by
  intro paths
  induction paths with
  | nil =>
    intro ep last _
    cases last <;> simp [mainLoop]
  | cons p rest ih =>
    intro ep last hclean
    have hp := hclean p (by simp)
    have hrest : ∀ q ∈ rest, env.kind q = FsKind.dir ∧ scan_for_titles cfg env q ≠ none :=
      fun q hq => hclean q (List.mem_cons_of_mem p hq)
    rcases hts : scan_for_titles cfg env p with _ | ts
    · exact absurd hts hp.2
    rw [mainLoop, hp.1, hts]
    simp only []
    rw [List.map_append, emitJobs_map_episode, ih _ _ hrest, emitJobs_snd]
    have hra := List.range'_append ep ts.length
      ((rest.map (fun q => (titlesOf cfg env q).length)).sum) 1
    simp only [one_mul] at hra
    rw [hra]
    have hteq : titlesOf cfg env p = ts := titlesOf_eq_of_some hts
    simp only [List.map_cons, List.sum_cons, hteq]
    congr 1
    omega

theorem mainLoop_clean_map_pt (cfg : Config) (env : Env) :
    ∀ (paths : List (List Char)) (ep : Nat) (last : Option (List Char)),
      (∀ p ∈ paths, env.kind p = FsKind.dir ∧ scan_for_titles cfg env p ≠ none) →
      (mainLoop cfg env paths ep last).jobs.map (fun j => (j.input_path, j.title))
        = (paths.map (fun p => (titlesOf cfg env p).map (fun t => (p, t)))).flatten := by
  intro paths
  induction paths with
  | nil =>
    intro ep last _
    cases last <;> simp [mainLoop]
  | cons p rest ih =>
    intro ep last hclean
    have hp := hclean p (by simp)
    have hrest : ∀ q ∈ rest, env.kind q = FsKind.dir ∧ scan_for_titles cfg env q ≠ none :=
      fun q hq => hclean q (List.mem_cons_of_mem p hq)
    rcases hts : scan_for_titles cfg env p with _ | ts
    · exact absurd hts hp.2
    rw [mainLoop, hp.1, hts]
    simp only []
    rw [List.map_append, emitJobs_map_pt, ih _ _ hrest]
    simp [titlesOf_eq_of_some hts]

theorem mainLoop_jobs_kind (cfg : Config) (env : Env) :
    ∀ (paths : List (List Char)) (ep : Nat) (last : Option (List Char)) (j : Job),
      j ∈ (mainLoop cfg env paths ep last).jobs → env.kind j.input_path = FsKind.dir := by
  intro paths
  induction paths with
  | nil =>
    intro ep last j hj
    cases last <;> simp [mainLoop] at hj
  | cons p rest ih =>
    intro ep last j hj
    rcases hk : env.kind p with _ | _ | _
    · rw [mainLoop, hk] at hj
      simp only [] at hj
      exact ih _ _ j hj
    · rcases hts : scan_for_titles cfg env p with _ | ts
      · rw [mainLoop, hk, hts] at hj
        simp at hj
      · rw [mainLoop, hk, hts] at hj
        simp only [] at hj
        rcases List.mem_append.mp hj with hj1 | hj2
        · rw [emitJobs_mem_path cfg p ts ep j hj1]
          exact hk
        · exact ih _ _ j hj2
    · rw [mainLoop, hk] at hj
      simp at hj

/-- C1: when every configured input path is a directory whose scan
succeeds, the final episode counter equals the start value plus the
total number of discovered titles; the emitted jobs carry exactly the
consecutive episode numbers start, start+1, ... (the counter advances by
exactly one per emitted job — no gaps, no reuse, never reset between
folders); and the job sequence is the concatenation, in configured
folder order, of each folder's titles in scan order. -/
theorem c1_global_episode_numbering (cfg : Config) (env : Env)
    (hdir : ∀ p ∈ cfg.input_file_paths, env.kind p = FsKind.dir)
    (hscan : ∀ p ∈ cfg.input_file_paths, scan_for_titles cfg env p ≠ none) :
    (main_run cfg env).episode_num
      = cfg.episode_num
        + (cfg.input_file_paths.map (fun p => (titlesOf cfg env p).length)).sum ∧
    (main_run cfg env).jobs.map Job.episode
      = List.range' cfg.episode_num
          ((cfg.input_file_paths.map (fun p => (titlesOf cfg env p).length)).sum) ∧
    (main_run cfg env).jobs.map (fun j => (j.input_path, j.title))
      = (cfg.input_file_paths.map
          (fun p => (titlesOf cfg env p).map (fun t => (p, t)))).flatten := by
  have hclean : ∀ p ∈ cfg.input_file_paths,
      env.kind p = FsKind.dir ∧ scan_for_titles cfg env p ≠ none :=
    fun p hp => ⟨hdir p hp, hscan p hp⟩
  exact ⟨mainLoop_clean_episode cfg env _ _ _ hclean,
    mainLoop_clean_map_episode cfg env _ _ _ hclean,
    mainLoop_clean_map_pt cfg env _ _ _ hclean⟩

/-- Witness for C1: the spec's scenario (start 1, folder A yields titles
5 and 12, folder B yields 7) has final counter 4, episodes 1, 2, 3, and
jobs (A,5), (A,12), (B,7) in that order. -/
theorem c1_global_episode_numbering_witness :
    (main_run cfgW envW).episode_num
      = cfgW.episode_num
        + (cfgW.input_file_paths.map (fun p => (titlesOf cfgW envW p).length)).sum ∧
    (main_run cfgW envW).jobs.map Job.episode
      = List.range' cfgW.episode_num
          ((cfgW.input_file_paths.map (fun p => (titlesOf cfgW envW p).length)).sum) ∧
    (main_run cfgW envW).jobs.map (fun j => (j.input_path, j.title))
      = (cfgW.input_file_paths.map
          (fun p => (titlesOf cfgW envW p).map (fun t => (p, t)))).flatten :=
  c1_global_episode_numbering cfgW envW (by decide) (by decide)

theorem mainLoop_neither (cfg : Config) (env : Env) (bad : List Char)
    (post : List (List Char)) (hbad : env.kind bad = FsKind.neither) :
    ∀ (pre : List (List Char)) (ep : Nat) (last : Option (List Char)),
      (∀ p ∈ pre, env.kind p ≠ FsKind.neither ∧
        (env.kind p = FsKind.dir → scan_for_titles cfg env p ≠ none)) →
      (mainLoop cfg env (pre ++ bad :: post) ep last).outcome
          = Outcome.exitInvalidPath bad ∧
      (mainLoop cfg env (pre ++ bad :: post) ep last).jobs
          = (mainLoop cfg env pre ep last).jobs ∧
      (mainLoop cfg env (pre ++ bad :: post) ep last).episode_num
          = (mainLoop cfg env pre ep last).episode_num := by
  intro pre
  induction pre with
  | nil =>
    intro ep last _
    rw [List.nil_append, mainLoop, hbad]
    cases last <;> simp [mainLoop]
  | cons p pre ih =>
    intro ep last hclean
    have hp := hclean p (by simp)
    have hpre : ∀ q ∈ pre, env.kind q ≠ FsKind.neither ∧
        (env.kind q = FsKind.dir → scan_for_titles cfg env q ≠ none) :=
      fun q hq => hclean q (List.mem_cons_of_mem p hq)
    rcases hk : env.kind p with _ | _ | _
    · have hih := ih ep last hpre
      refine ⟨?_, ?_, ?_⟩ <;> simp only [List.cons_append, mainLoop, hk]
      · exact hih.1
      · exact hih.2.1
      · exact hih.2.2
    · rcases hts : scan_for_titles cfg env p with _ | ts
      · exact absurd hts (hp.2 hk)
      · refine ⟨?_, ?_, ?_⟩ <;>
          simp only [List.cons_append, mainLoop, hk, hts, List.append_eq]
        · exact (ih _ _ hpre).1
        · rw [(ih _ _ hpre).2.1]
        · exact (ih _ _ hpre).2.2
    · exact absurd hk hp.1

/-- C4: if some configured input path is neither a regular file nor a
directory (and the paths before it do not abort the run), the run
terminates at that path via `sys.exit`: the outcome is the
invalid-path exit, and the emitted jobs and counter are exactly those of
processing only the paths before it — nothing is emitted for the bad
path or for any path configured after it. -/
theorem c4_invalid_path_aborts (cfg : Config) (env : Env)
    (pre post : List (List Char)) (bad : List Char)
    (hin : cfg.input_file_paths = pre ++ bad :: post)
    (hpre : ∀ p ∈ pre, env.kind p ≠ FsKind.neither ∧
      (env.kind p = FsKind.dir → scan_for_titles cfg env p ≠ none))
    (hbad : env.kind bad = FsKind.neither) :
    (main_run cfg env).outcome = Outcome.exitInvalidPath bad ∧
    (main_run cfg env).jobs
      = (mainLoop cfg env pre cfg.episode_num none).jobs ∧
    (main_run cfg env).episode_num
      = (mainLoop cfg env pre cfg.episode_num none).episode_num := by
  rw [main_run, hin]
  exact mainLoop_neither cfg env bad post hbad pre cfg.episode_num none hpre

/-- Witness for C4: with directories A, B configured around a path X
that is neither file nor directory, the run exits at X and only A's
jobs exist. -/
theorem c4_invalid_path_aborts_witness :
    (main_run { cfgW with input_file_paths := [str "A", str "X", str "B"] } envBad).outcome
        = Outcome.exitInvalidPath (str "X") ∧
    (main_run { cfgW with input_file_paths := [str "A", str "X", str "B"] } envBad).jobs
      = (mainLoop { cfgW with input_file_paths := [str "A", str "X", str "B"] } envBad
          [str "A"] 1 none).jobs ∧
    (main_run { cfgW with input_file_paths := [str "A", str "X", str "B"] } envBad).episode_num
      = (mainLoop { cfgW with input_file_paths := [str "A", str "X", str "B"] } envBad
          [str "A"] 1 none).episode_num :=
  c4_invalid_path_aborts { cfgW with input_file_paths := [str "A", str "X", str "B"] } envBad
    [str "A"] [str "B"] (str "X") rfl (by decide) (by decide)

theorem mainLoop_scanfail (cfg : Config) (env : Env) (d : List Char)
    (post : List (List Char)) (hd : env.kind d = FsKind.dir)
    (hfail : scan_for_titles cfg env d = none) :
    ∀ (pre : List (List Char)) (ep : Nat) (last : Option (List Char)),
      (∀ p ∈ pre, env.kind p ≠ FsKind.neither ∧
        (env.kind p = FsKind.dir → scan_for_titles cfg env p ≠ none)) →
      (mainLoop cfg env (pre ++ d :: post) ep last).outcome
          = Outcome.exitScanError d ∧
      (mainLoop cfg env (pre ++ d :: post) ep last).jobs
          = (mainLoop cfg env pre ep last).jobs ∧
      (mainLoop cfg env (pre ++ d :: post) ep last).episode_num
          = (mainLoop cfg env pre ep last).episode_num := by
  intro pre
  induction pre with
  | nil =>
    intro ep last _
    rw [List.nil_append, mainLoop, hd, hfail]
    cases last <;> simp [mainLoop]
  | cons p pre ih =>
    intro ep last hclean
    have hp := hclean p (by simp)
    have hpre : ∀ q ∈ pre, env.kind q ≠ FsKind.neither ∧
        (env.kind q = FsKind.dir → scan_for_titles cfg env q ≠ none) :=
      fun q hq => hclean q (List.mem_cons_of_mem p hq)
    rcases hk : env.kind p with _ | _ | _
    · refine ⟨?_, ?_, ?_⟩ <;>
        simp only [List.cons_append, mainLoop, hk, List.append_eq]
      · exact (ih _ _ hpre).1
      · exact (ih _ _ hpre).2.1
      · exact (ih _ _ hpre).2.2
    · rcases hts : scan_for_titles cfg env p with _ | ts
      · exact absurd hts (hp.2 hk)
      · refine ⟨?_, ?_, ?_⟩ <;>
          simp only [List.cons_append, mainLoop, hk, hts, List.append_eq]
        · exact (ih _ _ hpre).1
        · rw [(ih _ _ hpre).2.1]
        · exact (ih _ _ hpre).2.2
    · exact absurd hk hp.1

/-- C6: if the scan invocation for a configured directory raises a
process-level error (and the paths before it do not abort the run), the
run terminates there via `sys.exit`: no titles are returned for that
folder, the outcome is the scan-error exit, and the jobs and counter are
exactly those of the paths processed before it — nothing further is
emitted for that folder or for any later folder. -/
theorem c6_scan_failure_aborts (cfg : Config) (env : Env)
    (pre post : List (List Char)) (d : List Char)
    (hin : cfg.input_file_paths = pre ++ d :: post)
    (hpre : ∀ p ∈ pre, env.kind p ≠ FsKind.neither ∧
      (env.kind p = FsKind.dir → scan_for_titles cfg env p ≠ none))
    (hd : env.kind d = FsKind.dir)
    (hfail : scan_for_titles cfg env d = none) :
    (main_run cfg env).outcome = Outcome.exitScanError d ∧
    (main_run cfg env).jobs
      = (mainLoop cfg env pre cfg.episode_num none).jobs ∧
    (main_run cfg env).episode_num
      = (mainLoop cfg env pre cfg.episode_num none).episode_num := by
  rw [main_run, hin]
  exact mainLoop_scanfail cfg env d post hd hfail pre cfg.episode_num none hpre

/-- Witness for C6: directories A, S, B where scanning S raises a
subprocess error: the run exits with the scan error after A's jobs. -/
theorem c6_scan_failure_aborts_witness :
    (main_run { cfgW with input_file_paths := [str "A", str "S", str "B"] } envScanFail).outcome
        = Outcome.exitScanError (str "S") ∧
    (main_run { cfgW with input_file_paths := [str "A", str "S", str "B"] } envScanFail).jobs
      = (mainLoop { cfgW with input_file_paths := [str "A", str "S", str "B"] } envScanFail
          [str "A"] 1 none).jobs ∧
    (main_run { cfgW with input_file_paths := [str "A", str "S", str "B"] } envScanFail).episode_num
      = (mainLoop { cfgW with input_file_paths := [str "A", str "S", str "B"] } envScanFail
          [str "A"] 1 none).episode_num :=
  c6_scan_failure_aborts { cfgW with input_file_paths := [str "A", str "S", str "B"] }
    envScanFail [str "A"] [str "B"] (str "S") rfl (by decide) (by decide) (by decide)

theorem mainLoop_skip_file (cfg : Config) (env : Env) (f : List Char)
    (post : List (List Char)) (hf : env.kind f = FsKind.file) :
    ∀ (pre : List (List Char)) (ep : Nat) (last : Option (List Char)),
      (mainLoop cfg env (pre ++ f :: post) ep last).jobs
        = (mainLoop cfg env (pre ++ post) ep last).jobs ∧
      (mainLoop cfg env (pre ++ f :: post) ep last).episode_num
        = (mainLoop cfg env (pre ++ post) ep last).episode_num ∧
      (mainLoop cfg env (pre ++ f :: post) ep last).outcome
        = (mainLoop cfg env (pre ++ post) ep last).outcome := by
  intro pre
  induction pre with
  | nil =>
    intro ep last
    refine ⟨?_, ?_, ?_⟩ <;> simp only [List.nil_append, mainLoop, hf]
  | cons p pre ih =>
    intro ep last
    rcases hk : env.kind p with _ | _ | _
    · refine ⟨?_, ?_, ?_⟩ <;>
        simp only [List.cons_append, mainLoop, hk, List.append_eq]
      · exact (ih _ _).1
      · exact (ih _ _).2.1
      · exact (ih _ _).2.2
    · rcases hts : scan_for_titles cfg env p with _ | ts
      · refine ⟨?_, ?_, ?_⟩ <;>
          simp only [List.cons_append, mainLoop, hk, hts, List.append_eq]
      · refine ⟨?_, ?_, ?_⟩ <;>
          simp only [List.cons_append, mainLoop, hk, hts, List.append_eq]
        · rw [(ih _ _).1]
        · exact (ih _ _).2.1
        · exact (ih _ _).2.2
    · refine ⟨?_, ?_, ?_⟩ <;>
        simp only [List.cons_append, mainLoop, hk, List.append_eq]

theorem mainLoop_file_skipped (cfg : Config) (env : Env) (f : List Char)
    (post : List (List Char)) (hf : env.kind f = FsKind.file) :
    ∀ (pre : List (List Char)) (ep : Nat) (last : Option (List Char)),
      (∀ p ∈ pre, env.kind p ≠ FsKind.neither ∧
        (env.kind p = FsKind.dir → scan_for_titles cfg env p ≠ none)) →
      f ∈ (mainLoop cfg env (pre ++ f :: post) ep last).skipped := by
  intro pre
  induction pre with
  | nil =>
    intro ep last _
    simp only [List.nil_append, mainLoop, hf]
    exact List.mem_cons_self _ _
  | cons p pre ih =>
    intro ep last hclean
    have hp := hclean p (by simp)
    have hpre : ∀ q ∈ pre, env.kind q ≠ FsKind.neither ∧
        (env.kind q = FsKind.dir → scan_for_titles cfg env q ≠ none) :=
      fun q hq => hclean q (List.mem_cons_of_mem p hq)
    rcases hk : env.kind p with _ | _ | _
    · simp only [List.cons_append, mainLoop, hk, List.append_eq]
      exact List.mem_cons_of_mem p (ih _ _ hpre)
    · rcases hts : scan_for_titles cfg env p with _ | ts
      · exact absurd hts (hp.2 hk)
      · simp only [List.cons_append, mainLoop, hk, hts, List.append_eq]
        exact ih _ _ hpre
    · exact absurd hk hp.1

/-- C5: a configured input path that is a regular file (reached without
an earlier fatal condition) is logged as skipped, contributes no job,
leaves the episode counter unchanged, and the run continues: the jobs,
final counter, and outcome are exactly those of the configuration with
the file entry removed, and no emitted job references the file's path. -/
theorem c5_file_path_skipped (cfg : Config) (env : Env)
    (pre post : List (List Char)) (f : List Char)
    (hin : cfg.input_file_paths = pre ++ f :: post)
    (hpre : ∀ p ∈ pre, env.kind p ≠ FsKind.neither ∧
      (env.kind p = FsKind.dir → scan_for_titles cfg env p ≠ none))
    (hf : env.kind f = FsKind.file) :
    (main_run cfg env).jobs
      = (mainLoop cfg env (pre ++ post) cfg.episode_num none).jobs ∧
    (main_run cfg env).episode_num
      = (mainLoop cfg env (pre ++ post) cfg.episode_num none).episode_num ∧
    (main_run cfg env).outcome
      = (mainLoop cfg env (pre ++ post) cfg.episode_num none).outcome ∧
    f ∈ (main_run cfg env).skipped ∧
    ((main_run cfg env).jobs.all fun j => j.input_path != f) = true := by
  rw [main_run, hin]
  have hs := mainLoop_skip_file cfg env f post hf pre cfg.episode_num none
  refine ⟨hs.1, hs.2.1, hs.2.2,
    mainLoop_file_skipped cfg env f post hf pre _ _ hpre, ?_⟩
  rw [List.all_eq_true]
  intro j hj
  rw [bne_iff_ne]
  intro hjf
  have hkj := mainLoop_jobs_kind cfg env _ _ _ j hj
  rw [hjf, hf] at hkj
  cases hkj

/-- Witness for C5: directories A, B with a regular file F between
them: the run equals the run on A, B alone, F is logged as skipped, and
no job references F. -/
theorem c5_file_path_skipped_witness :
    (main_run { cfgW with input_file_paths := [str "A", str "F", str "B"] } envSkip).jobs
      = (mainLoop { cfgW with input_file_paths := [str "A", str "F", str "B"] } envSkip
          ([str "A"] ++ [str "B"]) 1 none).jobs ∧
    (main_run { cfgW with input_file_paths := [str "A", str "F", str "B"] } envSkip).episode_num
      = (mainLoop { cfgW with input_file_paths := [str "A", str "F", str "B"] } envSkip
          ([str "A"] ++ [str "B"]) 1 none).episode_num ∧
    (main_run { cfgW with input_file_paths := [str "A", str "F", str "B"] } envSkip).outcome
      = (mainLoop { cfgW with input_file_paths := [str "A", str "F", str "B"] } envSkip
          ([str "A"] ++ [str "B"]) 1 none).outcome ∧
    str "F" ∈ (main_run { cfgW with input_file_paths := [str "A", str "F", str "B"] } envSkip).skipped ∧
    ((main_run { cfgW with input_file_paths := [str "A", str "F", str "B"] } envSkip).jobs.all
      fun j => j.input_path != str "F") = true :=
  c5_file_path_skipped { cfgW with input_file_paths := [str "A", str "F", str "B"] } envSkip
    [str "A"] [str "B"] (str "F") rfl (by decide) (by decide)

theorem mainLoop_outcome (cfg : Config) (env : Env) :
    ∀ (paths : List (List Char)) (ep : Nat) (last : Option (List Char)),
      (∀ p ∈ paths, env.kind p ≠ FsKind.neither ∧
        (env.kind p = FsKind.dir → scan_for_titles cfg env p ≠ none)) →
      (mainLoop cfg env paths ep last).outcome
        = match (mainLoop cfg env paths ep last).jobs.getLast? with
          | some j => Outcome.summary (cfg.output_file_directory ++ j.out_name)
              ((mainLoop cfg env paths ep last).episode_num)
          | none =>
            match last with
            | some n => Outcome.summary (cfg.output_file_directory ++ n)
                ((mainLoop cfg env paths ep last).episode_num)
            | none => Outcome.unboundLocalError := by
  intro paths
  induction paths with
  | nil =>
    intro ep last _
    cases last <;> simp [mainLoop]
  | cons p rest ih =>
    intro ep last hclean
    have hp := hclean p (by simp)
    have hpre : ∀ q ∈ rest, env.kind q ≠ FsKind.neither ∧
        (env.kind q = FsKind.dir → scan_for_titles cfg env q ≠ none) :=
      fun q hq => hclean q (List.mem_cons_of_mem p hq)
    rcases hk : env.kind p with _ | _ | _
    · simp only [mainLoop, hk]
      exact ih ep last hpre
    · rcases hts : scan_for_titles cfg env p with _ | ts
      · exact absurd hts (hp.2 hk)
      simp only [mainLoop, hk, hts, List.append_eq]
      rcases hrj : (mainLoop cfg env rest (emitJobs cfg p ts ep).2
          (match (emitJobs cfg p ts ep).1.getLast? with
            | some j => some j.out_name
            | none => last)).jobs with _ | ⟨j0, js⟩
      · rw [List.append_nil]
        have hIH := ih (emitJobs cfg p ts ep).2
          (match (emitJobs cfg p ts ep).1.getLast? with
            | some j => some j.out_name
            | none => last) hpre
        rw [hrj] at hIH
        rcases hLg : (emitJobs cfg p ts ep).1.getLast? with _ | j
        · rw [hLg] at hIH
          simpa using hIH
        · rw [hLg] at hIH
          simpa using hIH
      · have hIH := ih (emitJobs cfg p ts ep).2
          (match (emitJobs cfg p ts ep).1.getLast? with
            | some j => some j.out_name
            | none => last) hpre
        rw [hrj] at hIH
        rw [List.getLast?_append_of_ne_nil _ (by simp : (j0 :: js : List Job) ≠ [])]
        rcases hgl : (j0 :: js : List Job).getLast? with _ | j
        · simp at hgl
        · rw [hgl] at hIH
          simpa using hIH
    · exact absurd hk hp.1

/-- C7 counterexample: a run whose configuration yields zero emitted
jobs (here: an empty input list, so the post-step is reached with no
fatal condition) does not report the final counter or signal
completion: line 186 reads the never-assigned local `output_file_name`
and the run dies with `UnboundLocalError` before the counter report and
the notification beep. -/
theorem c7_zero_jobs_counterexample :
    (main_run cfgEmpty envW).jobs = [] ∧
    (main_run cfgEmpty envW).outcome = Outcome.unboundLocalError ∧
    isSummary (main_run cfgEmpty envW).outcome = false :=
  ⟨rfl, rfl, rfl⟩

/-- C7 (amended): a run that processes every configured input path
without a fatal condition and emits at least one job reports, at the
post-step, the last emitted output path and the final episode counter
(the next unused number) and signals completion; a run reaching the
post-step with zero emitted jobs instead fails with an unbound-variable
error while building the last-output message, and no completion signal
is given. -/
theorem c7_post_step_amended (cfg : Config) (env : Env)
    (hok : ∀ p ∈ cfg.input_file_paths, env.kind p ≠ FsKind.neither ∧
      (env.kind p = FsKind.dir → scan_for_titles cfg env p ≠ none)) :
    (main_run cfg env).outcome
      = match (main_run cfg env).jobs.getLast? with
        | some j => Outcome.summary (cfg.output_file_directory ++ j.out_name)
            ((main_run cfg env).episode_num)
        | none => Outcome.unboundLocalError :=
  mainLoop_outcome cfg env cfg.input_file_paths cfg.episode_num none hok

/-- Witness for C7 (amended) at the scenario run: three jobs are
emitted, so the outcome is the success summary with the last output
path and the final counter. -/
theorem c7_post_step_amended_witness :
    (main_run cfgW envW).outcome
      = match (main_run cfgW envW).jobs.getLast? with
        | some j => Outcome.summary (cfgW.output_file_directory ++ j.out_name)
            ((main_run cfgW envW).episode_num)
        | none => Outcome.unboundLocalError :=
  c7_post_step_amended cfgW envW (by decide)
